import Mathlib

/-!
# Verification of the PERMANOVA implementation (`skbio/stats/distance/_permanova.py`)

A shallow embedding of the statistic-computation core of the repository.
Python/numpy floats are modelled by exact rationals (`ℚ`); all arithmetic in the
source consists of `+`, `-`, `*`, `/` and comparisons, so the formulas carry
over verbatim.  Numpy arrays of distances become `List ℚ`; the pair of index
arrays `tri_idxs = (rows, cols)` becomes a `List (ℕ × ℕ)` of the zipped pairs;
an integer grouping vector of length `N` becomes a function `ℕ → ℕ` (only its
values below `N` are ever consulted); the `N×N` integer grouping matrix becomes
a function `ℕ → ℕ → ℤ` so that the `-1` sentinel is representable.

The helpers `_preprocess_input` and `_run_stat_method` live in
`skbio/stats/distance/_base.py`, which is not among the sources; they are
modelled from the specification where needed and marked as such.
-/

/-- `np.bincount(grouping)` over a grouping vector of length `N`:
the number of objects `j < N` whose group code is `i`. -/
def bincount (N : ℕ) (grouping : ℕ → ℕ) : ℕ → ℕ :=
  fun i => ((List.range N).filter (fun j => grouping j == i)).length

/-- `_index_combinations(indices)` from `_permanova.py`:
`(np.tile(indices, len(indices)), np.repeat(indices, len(indices)))`. -/
def _index_combinations (indices : List ℕ) : List ℕ × List ℕ :=
  (List.flatten (List.replicate indices.length indices),
   indices.flatMap (fun x => List.replicate indices.length x))

/-- Numpy fancy-indexing assignment `gm[pairs] = v`, where `pairs` is a pair of
equal-length index arrays: every position `(pairs.1[k], pairs.2[k])` is set to
`v`, all other entries are kept. -/
def set_pairs (gm : ℕ → ℕ → ℤ) (pairs : List ℕ × List ℕ) (v : ℤ) : ℕ → ℕ → ℤ :=
  fun i j => if (i, j) ∈ List.zip pairs.1 pairs.2 then v else gm i j

/-- The grouping-matrix construction loop of `_compute_f_stat` (and of
`PERMANOVA._run`): start from an `N×N` matrix of `-1` and, for each
`group_idx` in `range(num_groups)`, set all cells whose row and column both
belong to the group (`np.where(grouping == group_idx)[0]`, expanded to all
ordered pairs by `_index_combinations`) to `group_idx`. -/
def grouping_matrix (sample_size num_groups : ℕ) (grouping : ℕ → ℕ) : ℕ → ℕ → ℤ :=
  (List.range num_groups).foldl
    (fun gm group_idx =>
      set_pairs gm
        (_index_combinations ((List.range sample_size).filter (fun j => grouping j == group_idx)))
        (group_idx : ℤ))
    (fun _ _ => -1)

/-- The `s_W` accumulation loop of `_compute_f_stat`: extract
`grouping_tri = grouping_matrix[tri_idxs]` and accumulate
`(distances[grouping_tri == i] ** 2).sum() / group_sizes[i]` over
`i in range(num_groups)`.  (Inline in the source; factored out here so the
within-group sum of squares can be named in theorem statements.) -/
def f_stat_s_W (sample_size num_groups : ℕ) (tri_idxs : List (ℕ × ℕ))
    (distances : List ℚ) (group_sizes : ℕ → ℕ) (grouping : ℕ → ℕ) : ℚ :=
  let gm := grouping_matrix sample_size num_groups grouping
  let grouping_tri := tri_idxs.map (fun p => gm p.1 p.2)
  (List.range num_groups).foldl
    (fun (s : ℚ) (i : ℕ) =>
      s + (((distances.zip grouping_tri).filter (fun q => q.2 == (i : ℤ))).map
              (fun q => q.1 ^ 2)).sum / (group_sizes i : ℚ))
    0

/-- `_compute_f_stat(sample_size, num_groups, tri_idxs, distances, group_sizes,
s_T, grouping)` from `_permanova.py`. -/
def _compute_f_stat (sample_size num_groups : ℕ) (tri_idxs : List (ℕ × ℕ))
    (distances : List ℚ) (group_sizes : ℕ → ℕ) (s_T : ℚ) (grouping : ℕ → ℕ) : ℚ :=
  let s_W := f_stat_s_W sample_size num_groups tri_idxs distances group_sizes grouping
  let s_A := s_T - s_W
  (s_A / ((num_groups : ℚ) - 1)) / (s_W / ((sample_size : ℚ) - (num_groups : ℚ)))

/-- The state cached on a `PERMANOVA` instance by `CategoricalStats.__init__`
and `PERMANOVA.__init__`: `self._dm.shape[0]`, `self._num_groups`
(`= len(self._groups)`), `self._tri_idxs`, `self._distances`,
`self._group_sizes` and `self._s_T`. -/
structure PERMANOVAState where
  shape0 : ℕ
  num_groups : ℕ
  tri_idxs : List (ℕ × ℕ)
  distances : List ℚ
  group_sizes : ℕ → ℕ
  s_T : ℚ

/-- The deprecated class's method `PERMANOVA._compute_f_stat(grouping_tri)`. -/
def PERMANOVA_compute_f_stat (st : PERMANOVAState) (grouping_tri : List ℤ) : ℚ :=
  let a := st.num_groups
  let N := st.shape0
  let s_W := (List.range a).foldl
    (fun (s : ℚ) (i : ℕ) =>
      s + (((st.distances.zip grouping_tri).filter (fun q => q.2 == (i : ℤ))).map
              (fun q => q.1 ^ 2)).sum / (st.group_sizes i : ℚ))
    0
  let s_A := st.s_T - s_W
  (s_A / ((a : ℚ) - 1)) / (s_W / ((N : ℚ) - (a : ℚ)))

/-- The deprecated class's method `PERMANOVA._run(grouping)`: build the
grouping matrix (the loop runs over `range(len(self._groups))`, and
`self._num_groups = len(self._groups)` by `__init__`), extract its upper
triangle at `self._tri_idxs`, and hand it to `self._compute_f_stat`. -/
def PERMANOVA_run (st : PERMANOVAState) (grouping : ℕ → ℕ) : ℚ :=
  let gm := grouping_matrix st.shape0 st.num_groups grouping
  let grouping_tri := st.tri_idxs.map (fun p => gm p.1 p.2)
  PERMANOVA_compute_f_stat st grouping_tri

/-- Modelled from the spec: `_run_stat_method` of
`skbio/stats/distance/_base.py` is not among the sources.  Following §4.3 of
the specification: compute the observed statistic, error on a negative
permutation count, return the NaN sentinel (modelled as `none`) when the count
is zero, and otherwise count how many permuted statistics are `≥` the observed
one and report `(count + 1) / (permutations + 1)`.  The randomly drawn permuted
groupings are supplied as the list `draws` (one entry per trial), since
randomness itself is not part of the embedding. -/
def _run_stat_method (test_stat_function : (ℕ → ℕ) → ℚ) (grouping : ℕ → ℕ)
    (permutations : ℤ) (draws : List (ℕ → ℕ)) : Except String (ℚ × Option ℚ) :=
  if permutations < 0 then
    Except.error "Number of permutations must be greater than or equal to zero."
  else
    let stat := test_stat_function grouping
    if permutations = 0 then
      Except.ok (stat, none)
    else
      let perm_stats := draws.map test_stat_function
      let count := (perm_stats.filter (fun ps => stat ≤ ps)).length
      Except.ok (stat, some (((count : ℚ) + 1) / ((permutations : ℚ) + 1)))

/-- The body of `permanova(...)` after `_preprocess_input` and before
`_build_results`: compute `group_sizes = np.bincount(grouping)` and
`s_T = (distances ** 2).sum() / sample_size` once, build the statistic
function by fixing all arguments of `_compute_f_stat` except the grouping,
and run the permutation method on it. -/
def permanova_core (sample_size num_groups : ℕ) (grouping : ℕ → ℕ)
    (tri_idxs : List (ℕ × ℕ)) (distances : List ℚ)
    (permutations : ℤ) (draws : List (ℕ → ℕ)) : Except String (ℚ × Option ℚ) :=
  let group_sizes := bincount sample_size grouping
  let s_T := (distances.map (fun x => x ^ 2)).sum / (sample_size : ℚ)
  let test_stat_function := fun g =>
    _compute_f_stat sample_size num_groups tri_idxs distances group_sizes s_T g
  _run_stat_method test_stat_function grouping permutations draws

/-- Modelled from the spec: `_preprocess_input` of
`skbio/stats/distance/_base.py` is not among the sources.  Following §4.1 of
the specification: the grouping must be as long as the number of objects, its
distinct labels are coded to contiguous integers `0..num_groups-1` (here: by
first occurrence), and fewer than 2 distinct labels is a `ValueError`-class
insufficient-groups error, raised before any statistic computation. -/
def _preprocess_input (sample_size : ℕ) (grouping : List ℕ) :
    Except String (ℕ × ℕ × List ℕ) :=
  if grouping.length ≠ sample_size then
    Except.error "Grouping vector size must match the number of IDs in the distance matrix."
  else
    let labels := grouping.dedup
    let num_groups := labels.length
    if num_groups < 2 then
      Except.error "All values in the grouping vector are the same. This method cannot operate on a grouping vector with only a single group of objects."
    else
      Except.ok (sample_size, num_groups, grouping.map (fun x => labels.indexOf x))

/-! ## Helper lemmas about the grouping matrix -/

/-- Zipping a list with a constant replicate of its own length pairs every
element with that constant. -/
lemma zip_replicate_self (l : List ℕ) (y : ℕ) :
    List.zip l (List.replicate l.length y) = l.map (fun x => (x, y)) := by
  induction l with
  | nil => rfl
  | cons x xs ih => simp [List.replicate_succ, ih]

/-- The zipped output of numpy's `tile`/`repeat` pattern enumerates all ordered
pairs drawn from the two lists. -/
lemma zip_tile_repeat (l₁ l₂ : List ℕ) :
    List.zip (List.flatten (List.replicate l₂.length l₁))
        (l₂.flatMap (fun x => List.replicate l₁.length x)) =
      l₂.flatMap (fun y => l₁.map (fun x => (x, y))) := by
  induction l₂ with
  | nil => simp
  | cons y ys ih =>
    simp only [List.length_cons, List.replicate_succ, List.flatten_cons, List.flatMap_cons]
    rw [List.zip_append (by simp), zip_replicate_self, ih]

/-- Membership in the index-pair family produced by `_index_combinations`. -/
lemma mem_index_combinations (idxs : List ℕ) (i j : ℕ) :
    (i, j) ∈ List.zip (_index_combinations idxs).1 (_index_combinations idxs).2 ↔
      i ∈ idxs ∧ j ∈ idxs := by
  unfold _index_combinations
  rw [zip_tile_repeat]
  simp only [List.mem_flatMap, List.mem_map, Prod.mk.injEq]
  constructor
  · rintro ⟨y, hy, x, hx, hxi, hyj⟩
    exact ⟨hxi ▸ hx, hyj ▸ hy⟩
  · rintro ⟨hi, hj⟩
    exact ⟨j, hj, i, hi, rfl, rfl⟩

/-- Effect of the grouping-matrix construction loop over an arbitrary list of
group codes: a cell `(i, j)` holds `grouping i` when both endpoints lie in the
matrix and share a group code that occurs in the list, else the initial value. -/
lemma grouping_matrix_foldl (N : ℕ) (grouping : ℕ → ℕ) (l : List ℕ)
    (init : ℕ → ℕ → ℤ) (i j : ℕ) :
    (l.foldl
        (fun gm g =>
          set_pairs gm
            (_index_combinations ((List.range N).filter (fun x => grouping x == g)))
            (g : ℤ))
        init) i j =
      if i < N ∧ j < N ∧ grouping i = grouping j ∧ grouping i ∈ l then (grouping i : ℤ)
      else init i j := by
  induction l generalizing init with
  | nil => simp
  | cons g gs ih =>
    rw [List.foldl_cons, ih]
    by_cases h : i < N ∧ j < N ∧ grouping i = grouping j ∧ grouping i ∈ gs
    · rw [if_pos h, if_pos ⟨h.1, h.2.1, h.2.2.1, List.mem_cons_of_mem _ h.2.2.2⟩]
    · rw [if_neg h]
      unfold set_pairs
      simp only [mem_index_combinations, List.mem_filter, List.mem_range, beq_iff_eq]
      split_ifs with h2 h3 h4
      · rw [h2.1.2]
      · exact absurd
          ⟨h2.1.1, h2.2.1, h2.1.2.trans h2.2.2.symm, h2.1.2 ▸ List.mem_cons_self g gs⟩ h3
      · rcases h4 with ⟨hiN, hjN, hgij, hmem⟩
        rcases List.mem_cons.mp hmem with hx | hx
        · exact absurd ⟨⟨hiN, hx⟩, ⟨hjN, hgij.symm.trans hx⟩⟩ h2
        · exact absurd ⟨hiN, hjN, hgij, hx⟩ h
      · rfl

/-- Closed form of the grouping matrix built by `_compute_f_stat` /
`PERMANOVA._run`: cell `(i, j)` holds the common group code of objects `i` and
`j` when both indices are in range and the shared code is below `num_groups`,
and the sentinel `-1` otherwise. -/
lemma grouping_matrix_apply (N a : ℕ) (grouping : ℕ → ℕ) (i j : ℕ) :
    grouping_matrix N a grouping i j =
      if i < N ∧ j < N ∧ grouping i = grouping j ∧ grouping i < a then (grouping i : ℤ)
      else -1 := by
  unfold grouping_matrix
  rw [grouping_matrix_foldl]
  simp only [List.mem_range]

/-! ## From the accumulation loops to mathematical sums -/

/-- A left fold that only accumulates additions is the initial value plus the
sum of the mapped list. -/
lemma foldl_add_eq (f : ℕ → ℚ) (l : List ℕ) (init : ℚ) :
    l.foldl (fun s i => s + f i) init = init + (l.map f).sum := by
  induction l generalizing init with
  | nil => simp
  | cons x xs ih => rw [List.foldl_cons, ih]; simp [add_assoc]

/-- Summing a function over `List.range` agrees with the `Finset.range` sum. -/
lemma range_map_sum (f : ℕ → ℚ) (n : ℕ) :
    ((List.range n).map f).sum = ∑ i ∈ Finset.range n, f i := by
  induction n with
  | zero => simp
  | succ n ih =>
    rw [List.range_succ, List.map_append, List.sum_append, Finset.sum_range_succ, ih]
    simp

/-- The within-group accumulation loop as a `Finset` sum over the group codes. -/
lemma f_stat_s_W_eq_sum (N a : ℕ) (tri : List (ℕ × ℕ)) (d : List ℚ)
    (gs : ℕ → ℕ) (grouping : ℕ → ℕ) :
    f_stat_s_W N a tri d gs grouping =
      ∑ i ∈ Finset.range a,
        (((d.zip (tri.map (fun p => grouping_matrix N a grouping p.1 p.2))).filter
            (fun q => q.2 == (i : ℤ))).map (fun q => q.1 ^ 2)).sum / (gs i : ℚ) := by
  unfold f_stat_s_W
  rw [foldl_add_eq, range_map_sum, zero_add]

/-- Sum of squares of the distances selected by a labelling of the index pairs,
re-expressed position-by-position. -/
lemma filtered_zip_sq_sum (d : List ℚ) (tri : List (ℕ × ℕ)) (lab : ℕ × ℕ → ℤ) (c : ℤ)
    (hlen : tri.length = d.length) :
    (((d.zip (tri.map lab)).filter (fun q => q.2 == c)).map (fun q => q.1 ^ 2)).sum =
      ∑ k ∈ Finset.range tri.length,
        if lab (tri.getD k (0, 0)) = c then (d.getD k 0) ^ 2 else 0 := by
  induction tri generalizing d with
  | nil => simp
  | cons p tri ih =>
    cases d with
    | nil => simp at hlen
    | cons x d =>
      have hlen' : tri.length = d.length := by simpa using hlen
      rw [List.length_cons, Finset.sum_range_succ']
      simp only [List.getD_cons_succ, List.getD_cons_zero]
      rw [← ih d hlen']
      by_cases h : lab p = c
      · simp [h, List.filter_cons, add_comm]
      · simp [h, List.filter_cons]

/-- The within-group sum of squares written the way the specification describes
it: for each group code `i`, the squared distances of the pairs both of whose
endpoints carry code `i`, divided by that group's size. -/
def specSW (num_groups : ℕ) (tri_idxs : List (ℕ × ℕ)) (distances : List ℚ)
    (group_sizes : ℕ → ℕ) (grouping : ℕ → ℕ) : ℚ :=
  ∑ i ∈ Finset.range num_groups,
    (∑ k ∈ Finset.range tri_idxs.length,
        if grouping (tri_idxs.getD k (0, 0)).1 = i ∧ grouping (tri_idxs.getD k (0, 0)).2 = i
        then (distances.getD k 0) ^ 2 else 0) / (group_sizes i : ℚ)

/-- On index pairs that lie inside the matrix, the loop-computed `s_W` is the
specification's within-group sum of squares. -/
lemma f_stat_s_W_eq_specSW (N a : ℕ) (tri : List (ℕ × ℕ)) (d : List ℚ)
    (gs : ℕ → ℕ) (grouping : ℕ → ℕ)
    (hlen : tri.length = d.length) (htri : ∀ p ∈ tri, p.1 < N ∧ p.2 < N) :
    f_stat_s_W N a tri d gs grouping = specSW a tri d gs grouping := by
  rw [f_stat_s_W_eq_sum]
  unfold specSW
  refine Finset.sum_congr rfl (fun i hi => ?_)
  rw [filtered_zip_sq_sum _ _ _ _ hlen]
  rw [Finset.mem_range] at hi
  congr 1
  refine Finset.sum_congr rfl (fun k hk => ?_)
  rw [Finset.mem_range] at hk
  have hmem : tri.getD k (0, 0) ∈ tri := by
    rw [List.getD_eq_getElem _ _ hk]
    exact List.getElem_mem hk
  refine if_congr ?_ rfl rfl
  rw [grouping_matrix_apply]
  rcases htri _ hmem with ⟨h1, h2⟩
  constructor
  · intro hv
    split_ifs at hv with hc
    have hgi : grouping (tri.getD k (0, 0)).1 = i := by exact_mod_cast hv
    exact ⟨hgi, hc.2.2.1 ▸ hgi⟩
  · rintro ⟨ha1, ha2⟩
    rw [if_pos ⟨h1, h2, ha1.trans ha2.symm, ha1 ▸ hi⟩]
    exact_mod_cast ha1

/-! ## Claim theorems -/

/-- C1: for every valid canonical input (aligned `tri_idxs`/`distances`, index
pairs inside the matrix), `_compute_f_stat` returns
`(s_A / (a - 1)) / (s_W / (N - a))`, where `s_W` accumulates, for each group
code `i < a`, the squared distances of the pairs whose `grouping_tri` entry is
`i` (equivalently, whose two endpoints both carry code `i`) divided by that
group's size, and `s_A = s_T - s_W`. -/
theorem compute_f_stat_formula (N a : ℕ) (tri : List (ℕ × ℕ)) (d : List ℚ)
    (gs : ℕ → ℕ) (s_T : ℚ) (grouping : ℕ → ℕ)
    (hlen : tri.length = d.length) (htri : ∀ p ∈ tri, p.1 < N ∧ p.2 < N) :
    _compute_f_stat N a tri d gs s_T grouping =
      ((s_T - specSW a tri d gs grouping) / ((a : ℚ) - 1)) /
        (specSW a tri d gs grouping / ((N : ℚ) - (a : ℚ))) := by
  unfold _compute_f_stat
  rw [f_stat_s_W_eq_specSW N a tri d gs grouping hlen htri]

/-- Witness for C1 at a concrete input. -/
theorem compute_f_stat_formula_witness :
    _compute_f_stat 3 2 [(0, 1), (0, 2), (1, 2)] [1, 2, 3]
        (fun i => if i = 0 then 2 else 1) 5 (fun j => if j < 2 then 0 else 1) =
      ((5 - specSW 2 [(0, 1), (0, 2), (1, 2)] [1, 2, 3]
            (fun i => if i = 0 then 2 else 1) (fun j => if j < 2 then 0 else 1)) /
          (((2 : ℕ) : ℚ) - 1)) /
        (specSW 2 [(0, 1), (0, 2), (1, 2)] [1, 2, 3]
            (fun i => if i = 0 then 2 else 1) (fun j => if j < 2 then 0 else 1) /
          (((3 : ℕ) : ℚ) - ((2 : ℕ) : ℚ))) :=
  compute_f_stat_formula 3 2 _ _ _ 5 _ (by decide) (by decide)

/-- C9: on one and the same canonical input tuple, the deprecated class's
`_run` (which finishes in its `_compute_f_stat` method) and the procedural
`_compute_f_stat` return exactly the same pseudo-F value. -/
theorem PERMANOVA_run_eq_compute_f_stat (N a : ℕ) (tri : List (ℕ × ℕ))
    (d : List ℚ) (gs : ℕ → ℕ) (s_T : ℚ) (grouping : ℕ → ℕ) :
    PERMANOVA_run ⟨N, a, tri, d, gs, s_T⟩ grouping =
      _compute_f_stat N a tri d gs s_T grouping := rfl

/-- C6: `permanova` computes `s_T = (distances ** 2).sum() / sample_size` once,
before running the permutation method, and the statistic function it hands to
the method fixes that very value, so the observed evaluation and every
per-permutation evaluation receive the identical `s_T`; it is never recomputed
from a permuted grouping. -/
theorem permanova_s_T_computed_once (N a : ℕ) (grouping : ℕ → ℕ)
    (tri : List (ℕ × ℕ)) (d : List ℚ) (P : ℤ) (draws : List (ℕ → ℕ)) :
    permanova_core N a grouping tri d P draws =
      _run_stat_method
        (fun g => _compute_f_stat N a tri d (bincount N grouping)
          ((d.map (fun x => x ^ 2)).sum / (N : ℚ)) g)
        grouping P draws := rfl

/-- C4: with `permutations == 0` no permutation trial is evaluated, the
p-value reported is the NaN sentinel (modelled `none`) — a defined outcome,
not an error — and the observed statistic is `_compute_f_stat` applied
directly to the unpermuted grouping. -/
theorem permanova_zero_permutations (N a : ℕ) (grouping : ℕ → ℕ)
    (tri : List (ℕ × ℕ)) (d : List ℚ) (draws : List (ℕ → ℕ)) :
    permanova_core N a grouping tri d 0 draws =
      Except.ok
        (_compute_f_stat N a tri d (bincount N grouping)
          ((d.map (fun x => x ^ 2)).sum / (N : ℚ)) grouping, none) := by
  rfl

/-- C8: a negative permutation count makes the procedure report the
invalid-parameter error instead of computing a p-value. -/
theorem permanova_negative_permutations (N a : ℕ) (grouping : ℕ → ℕ)
    (tri : List (ℕ × ℕ)) (d : List ℚ) (P : ℤ) (draws : List (ℕ → ℕ))
    (hP : P < 0) :
    permanova_core N a grouping tri d P draws =
      Except.error "Number of permutations must be greater than or equal to zero." := by
  unfold permanova_core _run_stat_method
  rw [if_pos hP]

/-- Witness for C8 at a concrete input. -/
theorem permanova_negative_permutations_witness :
    permanova_core 3 2 (fun j => j % 2) [(0, 1), (0, 2), (1, 2)] [1, 2, 3] (-1) [] =
      Except.error "Number of permutations must be greater than or equal to zero." :=
  permanova_negative_permutations 3 2 _ _ _ (-1) [] (by decide)

/-- C5: a grouping presenting a single distinct label (`num_groups == 1`) is
rejected by preprocessing with the `ValueError`-class insufficient-groups
error, before any statistic computation begins. -/
theorem preprocess_single_group_error (N : ℕ) (grouping : List ℕ)
    (hone : grouping.dedup.length = 1) (hlen : grouping.length = N) :
    _preprocess_input N grouping =
      Except.error "All values in the grouping vector are the same. This method cannot operate on a grouping vector with only a single group of objects." := by
  simp [_preprocess_input, hlen, hone]

/-- Witness for C5 at a concrete input. -/
theorem preprocess_single_group_error_witness :
    _preprocess_input 3 [7, 7, 7] =
      Except.error "All values in the grouping vector are the same. This method cannot operate on a grouping vector with only a single group of objects." :=
  preprocess_single_group_error 3 [7, 7, 7] (by decide) (by decide)

/-- C2: for a positive permutation count `P` (with one drawn permuted grouping
per trial), the permutation method reports the observed statistic together
with `p_value = (count + 1) / (P + 1)`, where `count` is the number of
permuted statistics `≥` the observed one; this p-value always lies in
`[1/(P+1), 1]` and is never exactly 0. -/
theorem run_stat_method_p_value (f : (ℕ → ℕ) → ℚ) (grouping : ℕ → ℕ)
    (P : ℤ) (draws : List (ℕ → ℕ))
    (hP : 0 < P) (hd : (draws.length : ℤ) = P) :
    ∃ count : ℕ,
      count = ((draws.map f).filter (fun ps => f grouping ≤ ps)).length ∧
      _run_stat_method f grouping P draws =
        Except.ok (f grouping, some (((count : ℚ) + 1) / ((P : ℚ) + 1))) ∧
      1 / ((P : ℚ) + 1) ≤ ((count : ℚ) + 1) / ((P : ℚ) + 1) ∧
      ((count : ℚ) + 1) / ((P : ℚ) + 1) ≤ 1 ∧
      ((count : ℚ) + 1) / ((P : ℚ) + 1) ≠ 0 := by
  have hP' : (0 : ℚ) < (P : ℚ) := by exact_mod_cast hP
  have hden : (0 : ℚ) < (P : ℚ) + 1 := by linarith
  have hcount : ((draws.map f).filter (fun ps => f grouping ≤ ps)).length ≤ draws.length :=
    le_trans (List.length_filter_le _ _) (by rw [List.length_map])
  have hcount' : (((draws.map f).filter (fun ps => f grouping ≤ ps)).length : ℚ) ≤ (P : ℚ) := by
    have hq : ((draws.length : ℤ) : ℚ) = (P : ℚ) := by exact_mod_cast hd
    rw [← hq]
    exact_mod_cast hcount
  have hnn : (0 : ℚ) ≤ (((draws.map f).filter (fun ps => f grouping ≤ ps)).length : ℚ) :=
    Nat.cast_nonneg _
  refine ⟨_, rfl, ?_, ?_, ?_, ?_⟩
  · unfold _run_stat_method
    rw [if_neg (by omega), if_neg (by omega)]
  · gcongr
    linarith
  · rw [div_le_one hden]
    linarith
  · exact ne_of_gt (div_pos (by linarith) hden)

/-- Witness for C2 at a concrete input (one permutation, one draw). -/
theorem run_stat_method_p_value_witness :
    ∃ count : ℕ,
      count = (([(fun _ => 0 : ℕ → ℕ)].map (fun _ => (0 : ℚ))).filter
          (fun ps => (0 : ℚ) ≤ ps)).length ∧
      _run_stat_method (fun _ => (0 : ℚ)) (fun _ => 0) 1 [(fun _ => 0 : ℕ → ℕ)] =
        Except.ok ((0 : ℚ), some (((count : ℚ) + 1) / (((1 : ℤ) : ℚ) + 1))) ∧
      1 / (((1 : ℤ) : ℚ) + 1) ≤ ((count : ℚ) + 1) / (((1 : ℤ) : ℚ) + 1) ∧
      ((count : ℚ) + 1) / (((1 : ℤ) : ℚ) + 1) ≤ 1 ∧
      ((count : ℚ) + 1) / (((1 : ℤ) : ℚ) + 1) ≠ 0 :=
  run_stat_method_p_value (fun _ => (0 : ℚ)) (fun _ => 0) 1 [fun _ => 0]
    (by decide) (by decide)

/-- C3: for a grouping with codes below `a`, the grouping matrix built by
`_compute_f_stat` is symmetric, holds code `g` at `(i, j)` exactly when
objects `i` and `j` both carry code `g` (diagonal included), and holds `-1`
otherwise; consequently its extraction at triangular indices (each unordered
pair once, `rows < cols`) carries code `g` exactly once per unordered
within-group pair of group `g`, and never labels a cross-group pair with a
group code. -/
theorem grouping_matrix_invariants (N a : ℕ) (grouping : ℕ → ℕ) (tri : List (ℕ × ℕ))
    (hg : ∀ j, j < N → grouping j < a)
    (htrilt : ∀ p ∈ tri, p.1 < p.2 ∧ p.2 < N)
    (htriall : ∀ x y, x < y → y < N → (x, y) ∈ tri)
    (htrinodup : tri.Nodup) :
    (∀ i j, grouping_matrix N a grouping i j = grouping_matrix N a grouping j i) ∧
    (∀ i j, i < N → j < N → ∀ g : ℕ,
      (grouping_matrix N a grouping i j = (g : ℤ) ↔ grouping i = g ∧ grouping j = g)) ∧
    (∀ i j, i < N → j < N →
      (grouping_matrix N a grouping i j = -1 ↔ grouping i ≠ grouping j)) ∧
    (∀ g : ℕ,
      (tri.map (fun p => grouping_matrix N a grouping p.1 p.2)).count (g : ℤ) =
        ((Finset.range N ×ˢ Finset.range N).filter
            (fun p => p.1 < p.2 ∧ grouping p.1 = g ∧ grouping p.2 = g)).card) ∧
    (∀ p ∈ tri, grouping p.1 ≠ grouping p.2 →
      grouping_matrix N a grouping p.1 p.2 = -1) := by
  have char : ∀ i j, i < N → j < N → ∀ g : ℕ,
      (grouping_matrix N a grouping i j = (g : ℤ) ↔ grouping i = g ∧ grouping j = g) := by
    intro i j hi hj g
    rw [grouping_matrix_apply]
    by_cases hc : i < N ∧ j < N ∧ grouping i = grouping j ∧ grouping i < a
    · rw [if_pos hc]
      constructor
      · intro hv
        have hgi : grouping i = g := by exact_mod_cast hv
        exact ⟨hgi, hc.2.2.1 ▸ hgi⟩
      · rintro ⟨h1, _⟩
        exact_mod_cast h1
    · rw [if_neg hc]
      constructor
      · intro hv
        exact absurd hv (by omega)
      · rintro ⟨h1, h2⟩
        exact absurd ⟨hi, hj, h1.trans h2.symm, h1 ▸ hg i hi⟩ hc
  have sentinel : ∀ i j, i < N → j < N →
      (grouping_matrix N a grouping i j = -1 ↔ grouping i ≠ grouping j) := by
    intro i j hi hj
    rw [grouping_matrix_apply]
    by_cases hc : i < N ∧ j < N ∧ grouping i = grouping j ∧ grouping i < a
    · rw [if_pos hc]
      constructor
      · intro hv
        exact absurd hv (by omega)
      · intro hne
        exact absurd hc.2.2.1 hne
    · rw [if_neg hc]
      constructor
      · intro _ heq
        exact hc ⟨hi, hj, heq, hg i hi⟩
      · intro _
        rfl
  refine ⟨?_, char, sentinel, ?_, ?_⟩
  · intro i j
    rw [grouping_matrix_apply, grouping_matrix_apply]
    by_cases hc : i < N ∧ j < N ∧ grouping i = grouping j ∧ grouping i < a
    · rw [if_pos hc, if_pos ⟨hc.2.1, hc.1, hc.2.2.1.symm, hc.2.2.1 ▸ hc.2.2.2⟩, hc.2.2.1]
    · rw [if_neg hc, if_neg]
      rintro ⟨hj, hi, heq, hlt⟩
      exact hc ⟨hi, hj, heq.symm, heq ▸ hlt⟩
  · intro g
    have hpred : ∀ p : ℕ × ℕ,
        ((fun x => x == (g : ℤ)) ∘ (fun p : ℕ × ℕ => grouping_matrix N a grouping p.1 p.2)) p =
          (grouping_matrix N a grouping p.1 p.2 == (g : ℤ)) := fun p => rfl
    rw [List.count_eq_countP, List.countP_map, List.countP_eq_length_filter]
    have hnodup : (tri.filter
        ((fun x => x == (g : ℤ)) ∘ (fun p : ℕ × ℕ => grouping_matrix N a grouping p.1 p.2))).Nodup :=
      htrinodup.filter _
    rw [← List.toFinset_card_of_nodup hnodup]
    congr 1
    ext p
    simp only [List.mem_toFinset, List.mem_filter, Function.comp_apply, beq_iff_eq,
      Finset.mem_filter, Finset.mem_product, Finset.mem_range]
    constructor
    · rintro ⟨hmem, hval⟩
      rcases htrilt p hmem with ⟨hlt, h2N⟩
      have h1N : p.1 < N := lt_trans hlt h2N
      rcases (char p.1 p.2 h1N h2N g).mp hval with ⟨ha1, ha2⟩
      exact ⟨⟨h1N, h2N⟩, hlt, ha1, ha2⟩
    · rintro ⟨⟨h1N, h2N⟩, hlt, ha1, ha2⟩
      have hmem : (p.1, p.2) ∈ tri := htriall p.1 p.2 hlt h2N
      refine ⟨by simpa using hmem, ?_⟩
      exact (char p.1 p.2 h1N h2N g).mpr ⟨ha1, ha2⟩
  · intro p hmem hne
    rcases htrilt p hmem with ⟨hlt, h2N⟩
    exact (sentinel p.1 p.2 (lt_trans hlt h2N) h2N).mpr hne

/-- Witness for C3 at a concrete input (3 objects, groups `[0, 0, 1]`). -/
theorem grouping_matrix_invariants_witness :
    (∀ i j, grouping_matrix 3 2 (fun j => if j < 2 then 0 else 1) i j =
        grouping_matrix 3 2 (fun j => if j < 2 then 0 else 1) j i) ∧
    (∀ i j, i < 3 → j < 3 → ∀ g : ℕ,
      (grouping_matrix 3 2 (fun j => if j < 2 then 0 else 1) i j = (g : ℤ) ↔
        (if i < 2 then 0 else 1) = g ∧ (if j < 2 then 0 else 1) = g)) ∧
    (∀ i j, i < 3 → j < 3 →
      (grouping_matrix 3 2 (fun j => if j < 2 then 0 else 1) i j = -1 ↔
        (if i < 2 then 0 else 1) ≠ (if j < 2 then 0 else 1))) ∧
    (∀ g : ℕ,
      ([(0, 1), (0, 2), (1, 2)].map
          (fun p => grouping_matrix 3 2 (fun j => if j < 2 then 0 else 1) p.1 p.2)).count (g : ℤ) =
        ((Finset.range 3 ×ˢ Finset.range 3).filter
            (fun p => p.1 < p.2 ∧ (if p.1 < 2 then 0 else 1) = g ∧
              (if p.2 < 2 then 0 else 1) = g)).card) ∧
    (∀ p ∈ [(0, 1), (0, 2), (1, 2)],
      (if p.1 < 2 then 0 else 1) ≠ (if p.2 < 2 then 0 else 1) →
      grouping_matrix 3 2 (fun j => if j < 2 then 0 else 1) p.1 p.2 = -1) :=
  grouping_matrix_invariants 3 2 (fun j => if j < 2 then 0 else 1) [(0, 1), (0, 2), (1, 2)]
    (by intro j hj; by_cases h : j < 2 <;> simp [h])
    (by decide)
    (by intro x y hxy hy; interval_cases y <;> interval_cases x <;> simp
      )
    (by decide)

/-- C7 counterexample: a valid input — 3 objects, 2 groups `[0, 0, 1]` of
sizes 2 and 1, non-negative distances `[1, 0, 0]` aligned with the triangular
pairs, and `s_T = (distances²).sum / N` — on which `_compute_f_stat` returns
the negative value `-1/3`: the within-group sum of squares `1/2` exceeds
`s_T = 1/3`, so `s_A < 0`. -/
theorem compute_f_stat_negative_counterexample :
    _compute_f_stat 3 2 [(0, 1), (0, 2), (1, 2)] [1, 0, 0]
        (bincount 3 (fun j => if j < 2 then 0 else 1))
        ((([1, 0, 0] : List ℚ).map (fun x => x ^ 2)).sum / ((3 : ℕ) : ℚ))
        (fun j => if j < 2 then 0 else 1) < 0 := by
  have h01 : grouping_matrix 3 2 (fun j => if j < 2 then 0 else 1) 0 1 = 0 := by decide
  have h02 : grouping_matrix 3 2 (fun j => if j < 2 then 0 else 1) 0 2 = -1 := by decide
  have h12 : grouping_matrix 3 2 (fun j => if j < 2 then 0 else 1) 1 2 = -1 := by decide
  have hb0 : bincount 3 (fun j => if j < 2 then 0 else 1) 0 = 2 := by decide
  have hb1 : bincount 3 (fun j => if j < 2 then 0 else 1) 1 = 1 := by decide
  simp [_compute_f_stat, f_stat_s_W, h01, h02, h12, hb0, hb1, List.range_succ, List.filter]
  norm_num

/-- C7 amended: with 2 ≤ a < N, the pseudo-F returned by `_compute_f_stat` is
non-negative whenever the within-group sum of squares is positive and does not
exceed `s_T`; with general non-negative distances it can be negative (see the
counterexample), since `s_W` may exceed `s_T`. -/
theorem compute_f_stat_nonneg_of_sW_le_sT (N a : ℕ) (tri : List (ℕ × ℕ))
    (d : List ℚ) (gs : ℕ → ℕ) (s_T : ℚ) (grouping : ℕ → ℕ)
    (ha : 2 ≤ a) (hN : a < N)
    (hpos : 0 < f_stat_s_W N a tri d gs grouping)
    (hle : f_stat_s_W N a tri d gs grouping ≤ s_T) :
    0 ≤ _compute_f_stat N a tri d gs s_T grouping := by
  have ha' : (2 : ℚ) ≤ (a : ℚ) := by exact_mod_cast ha
  have hN' : (a : ℚ) < (N : ℚ) := by exact_mod_cast hN
  unfold _compute_f_stat
  refine div_nonneg (div_nonneg (by linarith) (by linarith)) ?_
  exact le_of_lt (div_pos hpos (by linarith))

/-- Witness for the amended C7 at a concrete input (3 objects, groups
`[0, 0, 1]`, all distances 1, `s_T = 1`, `s_W = 1/2`). -/
theorem compute_f_stat_nonneg_witness :
    0 ≤ _compute_f_stat 3 2 [(0, 1), (0, 2), (1, 2)] [1, 1, 1]
        (bincount 3 (fun j => if j < 2 then 0 else 1)) 1
        (fun j => if j < 2 then 0 else 1) :=
  compute_f_stat_nonneg_of_sW_le_sT 3 2 [(0, 1), (0, 2), (1, 2)] [1, 1, 1]
    (bincount 3 (fun j => if j < 2 then 0 else 1)) 1 (fun j => if j < 2 then 0 else 1)
    (by decide) (by decide)
    (by
      have h01 : grouping_matrix 3 2 (fun j => if j < 2 then 0 else 1) 0 1 = 0 := by decide
      have h02 : grouping_matrix 3 2 (fun j => if j < 2 then 0 else 1) 0 2 = -1 := by decide
      have h12 : grouping_matrix 3 2 (fun j => if j < 2 then 0 else 1) 1 2 = -1 := by decide
      have hb0 : bincount 3 (fun j => if j < 2 then 0 else 1) 0 = 2 := by decide
      have hb1 : bincount 3 (fun j => if j < 2 then 0 else 1) 1 = 1 := by decide
      simp [f_stat_s_W, h01, h02, h12, hb0, hb1, List.range_succ, List.filter])
    (by
      have h01 : grouping_matrix 3 2 (fun j => if j < 2 then 0 else 1) 0 1 = 0 := by decide
      have h02 : grouping_matrix 3 2 (fun j => if j < 2 then 0 else 1) 0 2 = -1 := by decide
      have h12 : grouping_matrix 3 2 (fun j => if j < 2 then 0 else 1) 1 2 = -1 := by decide
      have hb0 : bincount 3 (fun j => if j < 2 then 0 else 1) 0 = 2 := by decide
      have hb1 : bincount 3 (fun j => if j < 2 then 0 else 1) 1 = 1 := by decide
      simp [f_stat_s_W, h01, h02, h12, hb0, hb1, List.range_succ, List.filter]
      norm_num)

/-- C10: applying a bijection `π` of the code space that maps the codes
`0..a-1` onto themselves to every entry of the grouping while permuting the
group-size table by the same bijection leaves `_compute_f_stat` unchanged:
the pseudo-F depends only on the partition, not on the integer names of the
groups. -/
theorem compute_f_stat_relabel (N a : ℕ) (tri : List (ℕ × ℕ)) (d : List ℚ)
    (gs : ℕ → ℕ) (s_T : ℚ) (grouping : ℕ → ℕ) (π : Equiv.Perm ℕ)
    (hlen : tri.length = d.length) (htri : ∀ p ∈ tri, p.1 < N ∧ p.2 < N)
    (hπ : ∀ i, i < a ↔ π i < a) :
    _compute_f_stat N a tri d (fun i => gs (π.symm i)) s_T (fun j => π (grouping j)) =
      _compute_f_stat N a tri d gs s_T grouping := by
  have hπsymm : ∀ i, i < a ↔ π.symm i < a := by
    intro i
    have h := hπ (π.symm i)
    rw [Equiv.apply_symm_apply] at h
    exact h.symm
  have key : specSW a tri d (fun i => gs (π.symm i)) (fun j => π (grouping j)) =
      specSW a tri d gs grouping := by
    unfold specSW
    refine Finset.sum_equiv π.symm ?_ ?_
    · intro i
      rw [Finset.mem_range, Finset.mem_range]
      exact hπsymm i
    · intro i _
      have hinner : ∀ k : ℕ,
          (if π (grouping (tri.getD k (0, 0)).1) = i ∧ π (grouping (tri.getD k (0, 0)).2) = i
            then (d.getD k 0) ^ 2 else 0) =
          (if grouping (tri.getD k (0, 0)).1 = π.symm i ∧ grouping (tri.getD k (0, 0)).2 = π.symm i
            then (d.getD k 0) ^ 2 else 0) := by
        intro k
        refine if_congr ?_ rfl rfl
        rw [Equiv.apply_eq_iff_eq_symm_apply, Equiv.apply_eq_iff_eq_symm_apply]
      simp only [hinner]
  unfold _compute_f_stat
  rw [f_stat_s_W_eq_specSW N a tri d _ _ hlen htri,
    f_stat_s_W_eq_specSW N a tri d gs grouping hlen htri, key]

/-- Witness for C10 at a concrete input (swap of the two group codes). -/
theorem compute_f_stat_relabel_witness :
    _compute_f_stat 3 2 [(0, 1), (0, 2), (1, 2)] [1, 2, 3]
        (fun i => bincount 3 (fun j => if j < 2 then 0 else 1) ((Equiv.swap 0 1).symm i)) 5
        (fun j => Equiv.swap 0 1 (if j < 2 then 0 else 1)) =
      _compute_f_stat 3 2 [(0, 1), (0, 2), (1, 2)] [1, 2, 3]
        (bincount 3 (fun j => if j < 2 then 0 else 1)) 5
        (fun j => if j < 2 then 0 else 1) :=
  compute_f_stat_relabel 3 2 [(0, 1), (0, 2), (1, 2)] [1, 2, 3]
    (bincount 3 (fun j => if j < 2 then 0 else 1)) 5 (fun j => if j < 2 then 0 else 1)
    (Equiv.swap 0 1) (by decide) (by decide)
    (by
      intro i
      rcases i with _ | _ | n
      · simp [Equiv.swap_apply_left]
      · simp [Equiv.swap_apply_right]
      · rw [Equiv.swap_apply_of_ne_of_ne (by omega) (by omega)])
